import Mathlib

/-!
Verification of the Smart_Storage scan-and-hash pipeline and duplicate
analyzer, as a shallow embedding of the Python sources.

Embedded components:
 - `src/scanner/hash_utils.py` — `generate_file_hash`: streaming SHA-256
   digest computation (SHA-256 itself is implemented here over byte lists,
   modelling Python's `hashlib.sha256`; machine words are `Nat` reduced
   modulo `2 ^ 32`).
 - `src/scanner/duplicate_finder.py` — `find_duplicates`,
   `count_duplicates`, `calculate_wasted_space` over record dictionaries
   (modelled as structures with optional fields, since the Python code
   tolerates missing keys via `dict.get`).
 - `src/scanner/scanner.py` — `FileScanner.scan_directory` /
   `_scan_recursive` / `_collect_file_info` over a filesystem tree model.
   Directory listings and file reads can fail (permission errors), which
   the model represents by `listable` / `readable` / `statOk` flags.

The filesystem is modelled as an inductive tree (`FSNode`); the scanner's
progress callback is modelled by a `Bool` flag (present / absent) together
with the list of emitted message strings, since the Python code ignores
the callback's return value.
-/

/- ===================== SHA-256 (models hashlib.sha256) ===================== -/

/-- Addition on 32-bit words represented as `Nat`. -/
def add32 (a b : Nat) : Nat := (a + b) % 4294967296

/-- Right rotation of a 32-bit word by `n` bits. -/
def rotr32 (n x : Nat) : Nat := ((x >>> n) ||| (x <<< (32 - n))) % 4294967296

/-- SHA-256 `Ch` function; bitwise complement is xor with `2 ^ 32 - 1`. -/
def ch32 (x y z : Nat) : Nat := (x &&& y) ^^^ ((x ^^^ 4294967295) &&& z)

/-- SHA-256 `Maj` function. -/
def maj32 (x y z : Nat) : Nat := Nat.xor ((x &&& y) ^^^ (x &&& z)) (y &&& z)

/-- SHA-256 big Σ₀. -/
def bigSigma0 (x : Nat) : Nat := rotr32 2 x ^^^ rotr32 13 x ^^^ rotr32 22 x

/-- SHA-256 big Σ₁. -/
def bigSigma1 (x : Nat) : Nat := rotr32 6 x ^^^ rotr32 11 x ^^^ rotr32 25 x

/-- SHA-256 small σ₀. -/
def smallSigma0 (x : Nat) : Nat := rotr32 7 x ^^^ rotr32 18 x ^^^ (x >>> 3)

/-- SHA-256 small σ₁. -/
def smallSigma1 (x : Nat) : Nat := rotr32 17 x ^^^ rotr32 19 x ^^^ (x >>> 10)

/-- The 64 SHA-256 round constants (FIPS 180-4, written in decimal). -/
def K256 : List Nat :=
  [1116352408, 1899447441, 3049323471, 3921009573, 961987163, 1508970993,
   2453635748, 2870763221, 3624381080, 310598401, 607225278, 1426881987,
   1925078388, 2162078206, 2614888103, 3248222580, 3835390401, 4022224774,
   264347078, 604807628, 770255983, 1249150122, 1555081692, 1996064986,
   2554220882, 2821834349, 2952996808, 3210313671, 3336571891, 3584528711,
   113926993, 338241895, 666307205, 773529912, 1294757372, 1396182291,
   1695183700, 1986661051, 2177026350, 2456956037, 2730485921, 2820302411,
   3259730800, 3345764771, 3516065817, 3600352804, 4094571909, 275423344,
   430227734, 506948616, 659060556, 883997877, 958139571, 1322822218,
   1537002063, 1747873779, 1955562222, 2024104815, 2227730452, 2361852424,
   2428436474, 2756734187, 3204031479, 3329325298]

/-- The initial SHA-256 hash state (FIPS 180-4, written in decimal). -/
def H256init : List Nat :=
  [1779033703, 3144134277, 1013904242, 2773480762,
   1359893119, 2600822924, 528734635, 1541459225]

/-- Big-endian byte expansion of `v` into `n` bytes (most significant first). -/
def bytesBE : Nat → Nat → List Nat
  | 0, _ => []
  | n + 1, v => bytesBE n (v / 256) ++ [v % 256]

/-- SHA-256 padding: append `0x80`, zero bytes up to 56 mod 64, then the
big-endian 64-bit bit length of the message. -/
def padMessage (msg : List Nat) : List Nat :=
  msg ++ [128] ++ List.replicate ((119 - msg.length % 64) % 64) 0 ++ bytesBE 8 (8 * msg.length)

/-- Group bytes into big-endian 32-bit words. -/
def toWords : List Nat → List Nat
  | b0 :: b1 :: b2 :: b3 :: rest => (((b0 * 256 + b1) * 256 + b2) * 256 + b3) :: toWords rest
  | _ => []

/-- Extend a 16-word block schedule by `n` further words. -/
def extendW (w : List Nat) : Nat → List Nat
  | 0 => w
  | n + 1 =>
    let t := w.length
    extendW (w ++ [(smallSigma1 (w.getD (t - 2) 0) + w.getD (t - 7) 0 +
      smallSigma0 (w.getD (t - 15) 0) + w.getD (t - 16) 0) % 4294967296]) n

/-- One SHA-256 compression round applied to the working variables. -/
def sha256Round (st : Nat × Nat × Nat × Nat × Nat × Nat × Nat × Nat) (kw : Nat × Nat) :
    Nat × Nat × Nat × Nat × Nat × Nat × Nat × Nat :=
  match st with
  | (a, b, c, d, e, f, g, h) =>
    let t1 := (h + bigSigma1 e + ch32 e f g + kw.1 + kw.2) % 4294967296
    let t2 := (bigSigma0 a + maj32 a b c) % 4294967296
    ((t1 + t2) % 4294967296, a, b, c, (d + t1) % 4294967296, e, f, g)

/-- Compress one 64-byte block into the hash state. -/
def processBlock (H : List Nat) (block : List Nat) : List Nat :=
  let st := (K256.zip (extendW (toWords block) 48)).foldl sha256Round
      (H.getD 0 0, H.getD 1 0, H.getD 2 0, H.getD 3 0,
       H.getD 4 0, H.getD 5 0, H.getD 6 0, H.getD 7 0)
  [add32 (H.getD 0 0) st.1, add32 (H.getD 1 0) st.2.1,
   add32 (H.getD 2 0) st.2.2.1, add32 (H.getD 3 0) st.2.2.2.1,
   add32 (H.getD 4 0) st.2.2.2.2.1, add32 (H.getD 5 0) st.2.2.2.2.2.1,
   add32 (H.getD 6 0) st.2.2.2.2.2.2.1, add32 (H.getD 7 0) st.2.2.2.2.2.2.2]

/-- Split a byte list into chunks of `k` bytes (last chunk may be shorter),
carrying the current partial chunk in an accumulator. -/
def chunksAux (k : Nat) : List Nat → List Nat → List (List Nat)
  | [], cur => if cur = [] then [] else [cur]
  | a :: rest, cur =>
    if (cur ++ [a]).length = k then (cur ++ [a]) :: chunksAux k rest []
    else chunksAux k rest (cur ++ [a])

/-- Split a byte list into chunks of `k` bytes. -/
def chunksOf (k : Nat) (l : List Nat) : List (List Nat) := chunksAux k l []

/-- The raw 32-byte SHA-256 digest of a byte list. -/
def sha256Bytes (msg : List Nat) : List Nat :=
  ((chunksOf 64 (padMessage msg)).foldl processBlock H256init).flatMap (bytesBE 4)

/-- The sixteen lowercase hexadecimal digit characters. -/
def hexDigits : List Char := "0123456789abcdef".data

/-- The lowercase hexadecimal character for a value below 16. -/
def hexChar (n : Nat) : Char := hexDigits.getD n '0'

/-- Two lowercase hexadecimal characters for one byte. -/
def byteHex (b : Nat) : List Char := [hexChar (b / 16 % 16), hexChar (b % 16)]

/-- Lowercase hexadecimal rendering of a byte list. -/
def bytesToHex (bs : List Nat) : String := String.mk (bs.flatMap byteHex)

/-- The lowercase hexadecimal SHA-256 digest of a byte list; models
`hashlib.sha256(data).hexdigest()`. -/
def sha256hex (msg : List Nat) : String := bytesToHex (sha256Bytes msg)

/- ===================== hash_utils.generate_file_hash ===================== -/

/-- A regular file as seen by `hash_utils`: its byte content, and whether
opening/reading it succeeds (`readable = false` models an `OSError` while
streaming its bytes). -/
structure FileEnt where
  content : List Nat
  readable : Bool
deriving Repr, DecidableEq

/-- Digest computation on the result of resolving a path: empty string when
the path is not an existing regular file or the read fails; otherwise the
file is streamed in 1 MiB chunks through the SHA-256 accumulator (the
accumulated data is the concatenation of the chunks) and the lowercase hex
digest is returned.  Mirrors the body of `generate_file_hash` in
`src/scanner/hash_utils.py`. -/
def hashFileEnt (e : Option FileEnt) : String :=
  match e with
  | none => ""
  | some f =>
    if f.readable then sha256hex ((chunksOf 1048576 f.content).foldl (· ++ ·) [])
    else ""

/-- `generate_file_hash` from `src/scanner/hash_utils.py`: the filesystem is
modelled as a partial map from path strings to regular files (`fs p = none`
means `Path(p).is_file()` is false). -/
def generate_file_hash (fs : String → Option FileEnt) (file_path : String) : String :=
  hashFileEnt (fs file_path)

/- ===================== duplicate_finder ===================== -/

/-- One file-metadata dictionary as consumed by `duplicate_finder`: the
Python code reads the keys `path`, `size` and `hash` with `dict.get`, so
each field may be absent. -/
structure Meta where
  path : Option String
  size : Option Nat
  hash : Option String
deriving Repr, DecidableEq

/-- The string value of an optional field, `""` when absent (Python's
`dict.get` returns `None`, and both `None` and `""` are falsy). -/
def oget (o : Option String) : String := o.getD ""

/-- Python truthiness of an optional string field: present and non-empty. -/
def truthy (o : Option String) : Bool := oget o != ""

/-- Insert path `p` into the group of digest `h`, creating the group at the
end when the digest is new; models one iteration of the grouping loop in
`find_duplicates` over an insertion-ordered dict. -/
def groupStep (acc : List (String × List String)) (h p : String) :
    List (String × List String) :=
  if acc.any (fun g => g.1 == h) then
    acc.map (fun g => if g.1 == h then (g.1, g.2 ++ [p]) else g)
  else
    acc ++ [(h, [p])]

/-- The grouping loop of `find_duplicates`: skip records whose hash or path
is missing/empty, otherwise add the path to its digest's group. -/
def hashGroupsAux (acc : List (String × List String)) :
    List Meta → List (String × List String)
  | [] => acc
  | r :: rs =>
    if truthy r.hash && truthy r.path then
      hashGroupsAux (groupStep acc (oget r.hash) (oget r.path)) rs
    else
      hashGroupsAux acc rs

/-- The digest-to-paths mapping built by `find_duplicates`
(`hash_groups` in `src/scanner/duplicate_finder.py`), in first-seen
digest order. -/
def hashGroups (records : List Meta) : List (String × List String) :=
  hashGroupsAux [] records

/-- `find_duplicates` from `src/scanner/duplicate_finder.py`: the path
groups of the digests carried by 2 or more records. -/
def find_duplicates (records : List Meta) : List (List String) :=
  ((hashGroups records).filter (fun g => 1 < g.2.length)).map (fun g => g.2)

/-- The result dictionary of `count_duplicates`. -/
structure DupCounts where
  groups : Nat
  files : Nat
deriving Repr, DecidableEq

/-- `count_duplicates` from `src/scanner/duplicate_finder.py`. -/
def count_duplicates (records : List Meta) : DupCounts :=
  ⟨(find_duplicates records).length, ((find_duplicates records).map List.length).sum⟩

/-- One iteration of the counting loop in `calculate_wasted_space`: a new
digest gets count 1 and remembers the current record's size; an existing
digest only has its count incremented. -/
def wsStep (acc : List (String × Nat × Nat)) (h : String) (sz : Nat) :
    List (String × Nat × Nat) :=
  if acc.any (fun g => g.1 == h) then
    acc.map (fun g => if g.1 == h then (g.1, g.2.1 + 1, g.2.2) else g)
  else
    acc ++ [(h, 1, sz)]

/-- The counting loop of `calculate_wasted_space`: only records with a
missing/empty hash are skipped (a missing path is NOT checked here); the
size defaults to 0 when absent. -/
def wsGroupsAux (acc : List (String × Nat × Nat)) :
    List Meta → List (String × Nat × Nat)
  | [] => acc
  | r :: rs =>
    if truthy r.hash then
      wsGroupsAux (wsStep acc (oget r.hash) (r.size.getD 0)) rs
    else
      wsGroupsAux acc rs

/-- The digest-to-(count, size) mapping built by `calculate_wasted_space`. -/
def wsGroups (records : List Meta) : List (String × Nat × Nat) :=
  wsGroupsAux [] records

/-- `calculate_wasted_space` from `src/scanner/duplicate_finder.py`. -/
def calculate_wasted_space (records : List Meta) : Nat :=
  (((wsGroups records).filter (fun g => 1 < g.2.1)).map
    (fun g => (g.2.1 - 1) * g.2.2)).sum

/-- The `size` field of the first record carrying digest `h` (0 when the
size is absent or no record carries `h`); the "representative size" of the
spec. -/
def firstSize (records : List Meta) (h : String) : Nat :=
  match records.find? (fun r => truthy r.hash && (oget r.hash == h)) with
  | some r => r.size.getD 0
  | none => 0

/-- The digests of the records that carry a non-empty hash, in record
order (with multiplicity). -/
def validHashes (records : List Meta) : List String :=
  (records.filter (fun r => truthy r.hash)).map (fun r => oget r.hash)

/-- The three-record example collection from the spec's concrete scenario. -/
def exRecords : List Meta :=
  [⟨some "/a/1.txt", some 100, some "H1"⟩,
   ⟨some "/b/2.txt", some 100, some "H1"⟩,
   ⟨some "/c/3.txt", some 200, some "H2"⟩]

/-- A collection on which `find_duplicates` and `calculate_wasted_space`
disagree: the first record has a hash but an empty path, so the grouping
pass drops it while the wasted-space pass counts it. -/
def cexRecords : List Meta :=
  [⟨some "", some 100, some "H"⟩,
   ⟨some "/a", some 100, some "H"⟩]

/- ===================== scanner ===================== -/

/-- One entry of the scanner's result list (`_collect_file_info`'s return
dictionary); all four fields are always present. -/
structure FileRec where
  path : String
  size : Nat
  name : String
  hash : String
deriving Repr, DecidableEq

/-- A node of the filesystem tree seen by the traversal: a regular file
(with content, readability of its bytes, and whether `stat` succeeds), a
directory (with the success of listing it, and its entries), or another
kind of entry (socket, device, ...). -/
inductive FSNode where
  | file (name : String) (content : List Nat) (readable : Bool) (statOk : Bool) : FSNode
  | dir (name : String) (listable : Bool) (entries : List FSNode) : FSNode
  | other (name : String) : FSNode
deriving Repr

/-- `_collect_file_info` from `src/scanner/scanner.py`: `stat` failure
(`statOk = false`) or an empty digest yields no record; otherwise the
record carries the file's absolute path, byte size, base name and digest.
The digest call resolves the file's own entry, sharing `hashFileEnt` with
`generate_file_hash`. -/
def collect_file_info (ipath name : String) (content : List Nat)
    (readable statOk : Bool) : Option FileRec :=
  if !statOk then none
  else
    let h := hashFileEnt (some ⟨content, readable⟩)
    if h = "" then none
    else some ⟨ipath, content.length, name, h⟩

/-- The scanner's mutable state: the accumulated records
(`self.scanned_files`) and the messages handed to the progress callback. -/
structure ScanState where
  records : List FileRec
  msgs : List String
deriving Repr, DecidableEq

/-- Append a progress message when a callback is present (`if
progress_callback: progress_callback(...)`). -/
def emit (cb : Bool) (msgs : List String) (m : String) : List String :=
  if cb then msgs ++ [m] else msgs

mutual

/-- Processing of one directory entry inside `_scan_recursive`'s loop:
directories recurse (an unlistable directory is skipped with a progress
message, mirroring the `except` clause around `iterdir`); files emit a
per-file message, append the collected record when one is produced, and
emit the running count whenever the record total is a multiple of 100;
other entries are ignored. -/
def scanItem (cb : Bool) (path : String) (s : ScanState) : FSNode → ScanState
  | .dir name listable entries =>
    let dpath := path ++ "/" ++ name
    if listable then scanItems cb dpath s entries
    else ⟨s.records, emit cb s.msgs ("Skipped directory (no permission): " ++ dpath)⟩
  | .file name content readable statOk =>
    let ipath := path ++ "/" ++ name
    let s1 : ScanState := ⟨s.records, emit cb s.msgs ("Scanning: " ++ ipath)⟩
    let s2 : ScanState :=
      match collect_file_info ipath name content readable statOk with
      | some r => ⟨s1.records ++ [r], s1.msgs⟩
      | none => s1
    if cb && s2.records.length % 100 == 0 then
      ⟨s2.records, s2.msgs ++ ["Files found: " ++ toString s2.records.length]⟩
    else s2
  | .other _ => s

/-- The iteration of `_scan_recursive` over a directory listing. -/
def scanItems (cb : Bool) (path : String) (s : ScanState) : List FSNode → ScanState
  | [] => s
  | i :: rest => scanItems cb path (scanItem cb path s i) rest

end

mutual

/-- The records contributed by scanning one entry at directory path
`path`, independent of prior state (specification-side companion of
`scanItem`). -/
def filesOfItem (path : String) : FSNode → List FileRec
  | .dir name listable entries =>
    if listable then filesOfItems (path ++ "/" ++ name) entries else []
  | .file name content readable statOk =>
    match collect_file_info (path ++ "/" ++ name) name content readable statOk with
    | some r => [r]
    | none => []
  | .other _ => []

/-- The records contributed by scanning a directory listing. -/
def filesOfItems (path : String) : List FSNode → List FileRec
  | [] => []
  | i :: rest => filesOfItem path i ++ filesOfItems path rest

end

/-- `FileScanner.scan_directory` from `src/scanner/scanner.py`: `root` is
the resolution of `rootPath` (`none` when the path does not exist); a
non-directory root and a missing root raise `ValueError` with distinct
messages, modelled as `Except.error`; otherwise the recursive scan runs
between the start and completion progress messages and the collected
records are returned. -/
def scan_directory (cb : Bool) (rootPath : String) (root : Option FSNode) :
    Except String ScanState :=
  match root with
  | none => .error ("Directory does not exist: " ++ rootPath)
  | some (.file _ _ _ _) => .error ("Path is not a directory: " ++ rootPath)
  | some (.other _) => .error ("Path is not a directory: " ++ rootPath)
  | some (.dir _ listable entries) =>
    let s0 : ScanState := ⟨[], emit cb [] "Starting scan..."⟩
    let s1 : ScanState :=
      if listable then scanItems cb rootPath s0 entries
      else ⟨s0.records, emit cb s0.msgs ("Skipped directory (no permission): " ++ rootPath)⟩
    .ok ⟨s1.records, emit cb s1.msgs
      ("Scan complete! Found " ++ toString s1.records.length ++ " files.")⟩

/-- The record component of a scan outcome. -/
def scanRecords (r : Except String ScanState) : Except String (List FileRec) :=
  r.map ScanState.records

/-- The SHA-256 digest of the single byte 104 (ASCII `h`), used by the
concrete scan examples. -/
def exDigestH : String := "aaa9402664f1a41f40ebbc52c9993eb66aeb366602958fdfaa283b71e64db123"

/-- A root directory holding one readable one-byte file. -/
def exRootNode : FSNode := .dir "r" true [.file "a.txt" [104] true true]

/-- The scan outcome for `exRootNode` under root path `/r`. -/
def exScanOut : ScanState :=
  ⟨[⟨"/r/a.txt", 1, "a.txt", exDigestH⟩],
   ["Starting scan...", "Scanning: /r/a.txt", "Scan complete! Found 1 files."]⟩

/-- A root directory holding one unlistable subdirectory and one readable
file, the traversal-robustness scenario of the spec. -/
def c6Tree : FSNode :=
  .dir "base" true
    [.dir "locked" false [.file "hidden.txt" [1, 2] true true],
     .file "ok.txt" [104] true true]

/-- A root directory holding a single unreadable file. -/
def c9Tree : FSNode := .dir "r" true [.file "x" [] false true]

/-- A small filesystem map with two identical readable files and one
unreadable file. -/
def exFS : String → Option FileEnt := fun q =>
  if q = "/f1" then some ⟨[1, 2, 3], true⟩
  else if q = "/f2" then some ⟨[1, 2, 3], true⟩
  else if q = "/f3" then some ⟨[9], false⟩
  else none

/-- Increment the count component of a (digest, count) pair when its key
matches `h`; proof-side companion of the update branches of `groupStep`
and `wsStep`. -/
def bumpKey (h : String) (kc : String × Nat) : String × Nat :=
  if kc.1 == h then (kc.1, kc.2 + 1) else kc

/- ===================== Theorems ===================== -/

mutual

/-- Scanning one entry appends exactly the entry's contributed records to
the state's record list; records never depend on the message log. -/
theorem scanItem_records (cb : Bool) (path : String) (s : ScanState) (n : FSNode) :
    (scanItem cb path s n).records = s.records ++ filesOfItem path n := by
  match n with
  | .dir name listable entries =>
    simp only [scanItem, filesOfItem]
    by_cases h : listable
    · simp [h, scanItems_records]
    · simp [h]
  | .file name content readable statOk =>
    simp only [scanItem, filesOfItem]
    cases hc : collect_file_info (path ++ "/" ++ name) name content readable statOk with
    | some r => simp [hc]; split <;> simp
    | none => simp [hc]; split <;> simp
  | .other name => simp [scanItem, filesOfItem]

/-- Scanning a directory listing appends exactly the listing's contributed
records. -/
theorem scanItems_records (cb : Bool) (path : String) (s : ScanState) (l : List FSNode) :
    (scanItems cb path s l).records = s.records ++ filesOfItems path l := by
  match l with
  | [] => simp [scanItems, filesOfItems]
  | i :: rest =>
    simp only [scanItems, filesOfItems]
    rw [scanItems_records, scanItem_records, List.append_assoc]

end

/-- Contributed records distribute over listing concatenation. -/
theorem filesOfItems_append (path : String) (xs ys : List FSNode) :
    filesOfItems path (xs ++ ys) = filesOfItems path xs ++ filesOfItems path ys := by
  induction xs with
  | nil => simp [filesOfItems]
  | cons x xs ih => simp [filesOfItems, ih]

/-- Claim C5: a missing root fails with the does-not-exist error and an
existing non-directory root fails with the not-a-directory error; both
failures are returned before any traversal, so no records and no messages
are produced. -/
theorem scan_directory_root_validation : ∀ (cb : Bool) (rootPath : String),
    scan_directory cb rootPath none = .error ("Directory does not exist: " ++ rootPath) ∧
    (∀ (name : String) (content : List Nat) (readable statOk : Bool),
      scan_directory cb rootPath (some (.file name content readable statOk)) =
        .error ("Path is not a directory: " ++ rootPath)) ∧
    (∀ name : String, scan_directory cb rootPath (some (.other name)) =
        .error ("Path is not a directory: " ++ rootPath)) :=
  fun _ _ => ⟨rfl, fun _ _ _ _ => rfl, fun _ => rfl⟩

/-- Claim C7: `count_duplicates` reports the number of groups returned by
`find_duplicates` and the total member count over those groups (all
members, including the copy that would be kept); on the spec's three-record
example the group list, the counts and the wasted space are as stated. -/
theorem count_duplicates_correct : ∀ records : List Meta,
    (count_duplicates records).groups = (find_duplicates records).length ∧
    (count_duplicates records).files = ((find_duplicates records).map List.length).sum ∧
    find_duplicates exRecords = [["/a/1.txt", "/b/2.txt"]] ∧
    count_duplicates exRecords = ⟨1, 2⟩ ∧
    calculate_wasted_space exRecords = 100 :=
  fun _ => ⟨rfl, rfl, by decide, by decide, by decide⟩

/-- Claim C8: the scan's outcome on records is identical with and without
a progress sink, at the whole-scan level and at every traversal state. -/
theorem progress_sink_no_influence : ∀ (rootPath : String) (root : Option FSNode),
    scanRecords (scan_directory true rootPath root) =
      scanRecords (scan_directory false rootPath root) ∧
    ∀ (cb cb' : Bool) (path : String) (recs : List FileRec)
      (msgs msgs' : List String) (l : List FSNode),
      (scanItems cb path ⟨recs, msgs⟩ l).records =
        (scanItems cb' path ⟨recs, msgs'⟩ l).records := by
  intro rootPath root
  constructor
  · match root with
    | none => rfl
    | some (.file _ _ _ _) => rfl
    | some (.other _) => rfl
    | some (.dir name listable entries) =>
      simp only [scan_directory, scanRecords, Except.map]
      by_cases h : listable <;>
        simp [h, scanItems_records, emit]
  · intro cb cb' path recs msgs msgs' l
    rw [scanItems_records, scanItems_records]

/-- Claim C6: a permission failure on one directory listing or one file is
non-fatal.  An unlistable directory leaves the records untouched and only
adds the skip notification; dropping it (or an unreadable file) from a
listing does not change the scanned records of the siblings; an unreadable
file still gets its per-file progress notification; and on the concrete
tree with one unlistable subdirectory and one readable file, the scan
returns the readable file's record without failing. -/
theorem scan_error_nonfatal : ∀ (cb : Bool) (path : String) (s : ScanState)
    (name : String) (entries xs ys : List FSNode) (content : List Nat) (statOk : Bool),
    (scanItem cb path s (.dir name false entries) =
      ⟨s.records, emit cb s.msgs ("Skipped directory (no permission): " ++ (path ++ "/" ++ name))⟩) ∧
    ((scanItems cb path s (xs ++ .dir name false entries :: ys)).records =
      (scanItems cb path s (xs ++ ys)).records) ∧
    ((scanItem cb path s (.file name content false statOk)).records = s.records) ∧
    ((scanItems cb path s (xs ++ .file name content false statOk :: ys)).records =
      (scanItems cb path s (xs ++ ys)).records) ∧
    ("Scanning: " ++ (path ++ "/" ++ name)) ∈
      (scanItem true path s (.file name content false statOk)).msgs ∧
    scan_directory true "/base" (some c6Tree) =
      .ok ⟨[⟨"/base/ok.txt", 1, "ok.txt", exDigestH⟩],
        ["Starting scan...", "Skipped directory (no permission): /base/locked",
         "Scanning: /base/ok.txt", "Scan complete! Found 1 files."]⟩ := by
  intro cb path s name entries xs ys content statOk
  have hfile : filesOfItem path (.file name content false statOk) = [] := by
    simp [filesOfItem, collect_file_info, hashFileEnt]
  refine ⟨rfl, ?_, ?_, ?_, ?_, rfl⟩
  · rw [scanItems_records, scanItems_records, filesOfItems_append, filesOfItems_append]
    simp [filesOfItems, filesOfItem]
  · rw [scanItem_records, hfile, List.append_nil]
  · rw [scanItems_records, scanItems_records, filesOfItems_append, filesOfItems_append]
    simp [filesOfItems, hfile]
  · simp only [scanItem]
    cases hc : collect_file_info (path ++ "/" ++ name) name content false statOk with
    | some r => simp [hc, emit]; split <;> simp
    | none => simp [hc, emit]; split <;> simp

/-- Claim C9 (counterexample): on a directory holding a single unreadable
file, the scan records nothing, yet a milestone message reporting count 0
is emitted — so milestones are not emitted only when the recorded count
reaches a new multiple of 100. -/
theorem milestone_claim_cex :
    scan_directory true "/r" (some c9Tree) =
      .ok ⟨[], ["Starting scan...", "Scanning: /r/x", "Files found: 0",
                "Scan complete! Found 0 files."]⟩ := rfl

/-- Claim C9 (amended): with a progress sink, after every examined file the
milestone message reporting the running record count is emitted exactly
when that running count is a multiple of 100 — including count 0 and
repeated multiples, whether or not the examined file produced a record. -/
theorem milestone_on_multiples :
    ∀ (path : String) (s : ScanState) (name : String) (content : List Nat)
      (readable statOk : Bool),
    (scanItem true path s (.file name content readable statOk)).msgs =
      s.msgs ++ ["Scanning: " ++ (path ++ "/" ++ name)] ++
        (if (scanItem true path s (.file name content readable statOk)).records.length % 100 = 0
         then ["Files found: " ++
           toString (scanItem true path s (.file name content readable statOk)).records.length]
         else []) := by
  intro path s name content readable statOk
  simp only [scanItem]
  cases hc : collect_file_info (path ++ "/" ++ name) name content readable statOk with
  | some r =>
    simp only [hc, emit, if_pos, Bool.true_and]
    by_cases h : (s.records.length + 1) % 100 = 0 <;> simp [h]
  | none =>
    simp only [hc, emit, if_pos, Bool.true_and]
    by_cases h : s.records.length % 100 = 0 <;> simp [h]

/-- String concatenation is associative. -/
theorem strAppend_assoc (a b c : String) : (a ++ b) ++ c = a ++ (b ++ c) := by
  apply String.ext
  simp [String.data_append]

/-- Flattening the chunks recovers the accumulated prefix plus the input. -/
theorem chunksAux_flat (k : Nat) :
    ∀ (l cur : List Nat), (chunksAux k l cur).flatten = cur ++ l := by
  intro l
  induction l with
  | nil =>
    intro cur
    by_cases h : cur = ([] : List Nat) <;> simp [chunksAux, h]
  | cons a rest ih =>
    intro cur
    by_cases h : cur.length + 1 = k <;>
      simp [chunksAux, h, ih]

/-- Left-folding list concatenation over a list of lists flattens it. -/
theorem foldl_append_flat :
    ∀ (ls : List (List Nat)) (acc : List Nat), ls.foldl (· ++ ·) acc = acc ++ ls.flatten := by
  intro ls
  induction ls with
  | nil => intro acc; simp
  | cons x xs ih => intro acc; simp [ih, List.append_assoc]

/-- Streaming a file in chunks through the accumulator hashes exactly the
file's full content. -/
theorem hashStream_eq (k : Nat) (c : List Nat) :
    sha256hex ((chunksOf k c).foldl (· ++ ·) []) = sha256hex c := by
  rw [chunksOf, foldl_append_flat, chunksAux_flat]
  rfl

/-- Reading a readable file's entry yields the SHA-256 digest of its
content; an unreadable or missing entry yields the empty string. -/
theorem hashFileEnt_eq :
    (∀ c : List Nat, hashFileEnt (some ⟨c, true⟩) = sha256hex c) ∧
    (∀ c : List Nat, hashFileEnt (some ⟨c, false⟩) = "") ∧
    hashFileEnt none = "" := by
  refine ⟨fun c => ?_, fun c => rfl, rfl⟩
  simp only [hashFileEnt, if_pos]
  exact hashStream_eq 1048576 c

mutual

/-- Every record contributed by one entry has a non-empty digest equal to
the SHA-256 of some content whose length is the record's size, a path
ending in its name, and a path extending the enclosing directory path. -/
theorem filesOfItem_sound (path : String) (n : FSNode) :
    ∀ r ∈ filesOfItem path n, r.hash ≠ "" ∧
      (∃ c : List Nat, r.hash = sha256hex c ∧ r.size = c.length) ∧
      (∃ pfx : String, r.path = pfx ++ "/" ++ r.name) ∧
      (∃ sfx : String, r.path = path ++ sfx) := by
  match n with
  | .dir name listable entries =>
    intro r hr
    simp only [filesOfItem] at hr
    by_cases h : listable
    · rw [if_pos h] at hr
      obtain ⟨h1, h2, h3, sfx, h4⟩ := filesOfItems_sound (path ++ "/" ++ name) entries r hr
      refine ⟨h1, h2, h3, "/" ++ name ++ sfx, ?_⟩
      rw [h4]
      simp [strAppend_assoc]
    · rw [if_neg h] at hr
      simp at hr
  | .file name content readable statOk =>
    intro r hr
    simp only [filesOfItem] at hr
    cases hst : statOk with
    | false => simp [collect_file_info, hst] at hr
    | true =>
      cases hrd : readable with
      | false => simp [collect_file_info, hst, hrd, hashFileEnt] at hr
      | true =>
        rw [hst, hrd] at hr
        simp only [collect_file_info, Bool.not_true, hashFileEnt_eq.1,
          Bool.false_eq_true, if_false] at hr
        by_cases hz : sha256hex content = ""
        · rw [if_pos hz] at hr; simp at hr
        · rw [if_neg hz] at hr
          simp only [List.mem_singleton] at hr
          subst hr
          exact ⟨hz, ⟨content, rfl, rfl⟩, ⟨path, rfl⟩, "/" ++ name, strAppend_assoc path "/" name⟩
  | .other name =>
    intro r hr
    simp [filesOfItem] at hr

/-- The listing-level version of `filesOfItem_sound`. -/
theorem filesOfItems_sound (path : String) (l : List FSNode) :
    ∀ r ∈ filesOfItems path l, r.hash ≠ "" ∧
      (∃ c : List Nat, r.hash = sha256hex c ∧ r.size = c.length) ∧
      (∃ pfx : String, r.path = pfx ++ "/" ++ r.name) ∧
      (∃ sfx : String, r.path = path ++ sfx) := by
  match l with
  | [] => intro r hr; simp [filesOfItems] at hr
  | i :: rest =>
    intro r hr
    simp only [filesOfItems, List.mem_append] at hr
    cases hr with
    | inl h => exact filesOfItem_sound path i r h
    | inr h => exact filesOfItems_sound path rest r h

end

/-- Claim C3: every record returned by a successful scan has a non-empty
digest (records of unreadable files are never emitted); its size is the
byte length of the hashed content, its path ends with its base name, and
its path extends the scanned root path. -/
theorem scan_directory_result_guarantee : ∀ (cb : Bool) (rootPath : String)
    (root : Option FSNode) (s : ScanState),
    scan_directory cb rootPath root = .ok s →
    ∀ r ∈ s.records, r.hash ≠ "" ∧
      (∃ c : List Nat, r.hash = sha256hex c ∧ r.size = c.length) ∧
      (∃ pfx : String, r.path = pfx ++ "/" ++ r.name) ∧
      (∃ sfx : String, r.path = rootPath ++ sfx) := by
  intro cb rootPath root s hok
  match root with
  | none => simp [scan_directory] at hok
  | some (.file _ _ _ _) => simp [scan_directory] at hok
  | some (.other _) => simp [scan_directory] at hok
  | some (.dir name listable entries) =>
    simp only [scan_directory, Except.ok.injEq] at hok
    by_cases h : listable
    · rw [if_pos h] at hok
      intro r hr
      rw [← hok] at hr
      simp only [ScanState.records] at hr
      rw [scanItems_records] at hr
      simp only [ScanState.records, List.nil_append] at hr
      exact filesOfItems_sound rootPath entries r hr
    · rw [if_neg h] at hok
      intro r hr
      rw [← hok] at hr
      simp at hr

/-- Witness for claim C3: the concrete one-file scan succeeds and its
record satisfies every guaranteed property. -/
theorem scan_directory_result_guarantee_witness :
    (⟨"/r/a.txt", 1, "a.txt", exDigestH⟩ : FileRec).hash ≠ "" ∧
      (∃ c : List Nat, (⟨"/r/a.txt", 1, "a.txt", exDigestH⟩ : FileRec).hash = sha256hex c ∧
        (⟨"/r/a.txt", 1, "a.txt", exDigestH⟩ : FileRec).size = c.length) ∧
      (∃ pfx : String, (⟨"/r/a.txt", 1, "a.txt", exDigestH⟩ : FileRec).path =
        pfx ++ "/" ++ (⟨"/r/a.txt", 1, "a.txt", exDigestH⟩ : FileRec).name) ∧
      (∃ sfx : String, (⟨"/r/a.txt", 1, "a.txt", exDigestH⟩ : FileRec).path = "/r" ++ sfx) :=
  scan_directory_result_guarantee true "/r" (some exRootNode) exScanOut rfl
    ⟨"/r/a.txt", 1, "a.txt", exDigestH⟩ (by simp [exScanOut])

/-- The hash field of a Python-truthy optional string is present. -/
theorem truthy_some {o : Option String} (h : truthy o = true) : o = some (oget o) := by
  cases o with
  | none => simp [truthy, oget] at h
  | some s => rfl

/-- A Python-truthy optional string is non-empty. -/
theorem truthy_ne {o : Option String} (h : truthy o = true) : oget o ≠ "" := by
  simpa [truthy, bne_iff_ne] using h

/-- One grouping step preserves the per-group soundness invariant: every
group key is a non-empty digest and every member path is non-empty and
carried, together with that digest, by some record of `L`. -/
theorem groupStep_sound (L : List Meta) (acc : List (String × List String))
    (h p : String) (hne : h ≠ "") (pne : p ≠ "")
    (hhp : ∃ r ∈ L, r.hash = some h ∧ r.path = some p)
    (hacc : ∀ g ∈ acc, g.1 ≠ "" ∧ ∀ q ∈ g.2, q ≠ "" ∧
      ∃ r ∈ L, r.hash = some g.1 ∧ r.path = some q) :
    ∀ g ∈ groupStep acc h p, g.1 ≠ "" ∧ ∀ q ∈ g.2, q ≠ "" ∧
      ∃ r ∈ L, r.hash = some g.1 ∧ r.path = some q := by
  intro g hg
  unfold groupStep at hg
  by_cases hmem : acc.any (fun g => g.1 == h) = true
  · rw [if_pos hmem] at hg
    obtain ⟨g0, hg0, hge⟩ := List.mem_map.1 hg
    by_cases hk : g0.1 == h
    · rw [if_pos hk] at hge
      subst hge
      have hk' : g0.1 = h := by simpa using hk
      refine ⟨(hacc g0 hg0).1, ?_⟩
      intro q hq
      rcases List.mem_append.1 hq with hq | hq
      · exact (hacc g0 hg0).2 q hq
      · have : q = p := by simpa using hq
        subst this
        exact ⟨pne, by rw [hk']; exact hhp⟩
    · rw [if_neg hk] at hge
      subst hge
      exact hacc g0 hg0
  · rw [if_neg hmem] at hg
    rcases List.mem_append.1 hg with hg | hg
    · exact hacc g hg
    · have : g = (h, [p]) := by simpa using hg
      subst this
      refine ⟨hne, ?_⟩
      intro q hq
      have : q = p := by simpa using hq
      subst this
      exact ⟨pne, hhp⟩

/-- The grouping loop preserves the per-group soundness invariant. -/
theorem hashGroupsAux_sound :
    ∀ (rs : List Meta) (L : List Meta) (acc : List (String × List String)),
    (∀ r ∈ rs, r ∈ L) →
    (∀ g ∈ acc, g.1 ≠ "" ∧ ∀ q ∈ g.2, q ≠ "" ∧
      ∃ r ∈ L, r.hash = some g.1 ∧ r.path = some q) →
    ∀ g ∈ hashGroupsAux acc rs, g.1 ≠ "" ∧ ∀ q ∈ g.2, q ≠ "" ∧
      ∃ r ∈ L, r.hash = some g.1 ∧ r.path = some q := by
  intro rs
  induction rs with
  | nil => intro L acc _ hacc; simpa [hashGroupsAux] using hacc
  | cons r rest ih =>
    intro L acc hsub hacc
    simp only [hashGroupsAux]
    by_cases hb : (truthy r.hash && truthy r.path) = true
    · rw [if_pos hb]
      obtain ⟨hbh, hbp⟩ := Bool.and_eq_true_iff.1 hb
      refine ih L _ (fun x hx => hsub x (List.mem_cons_of_mem r hx)) ?_
      refine groupStep_sound L acc (oget r.hash) (oget r.path)
        (truthy_ne hbh) (truthy_ne hbp)
        ⟨r, hsub r (List.mem_cons_self r rest), (truthy_some hbh).symm ▸ rfl, ?_⟩ hacc
      · exact (truthy_some hbp).symm ▸ rfl
    · rw [if_neg hb]
      exact ih L acc (fun x hx => hsub x (List.mem_cons_of_mem r hx)) hacc

/-- Claim C1: every group returned by `find_duplicates` has at least two
members, and there is a single non-empty digest such that every path of the
group is non-empty and is carried, together with that digest, by some input
record; hence records with a missing/empty digest or path never contribute
to any group. -/
theorem find_duplicates_groups_sound : ∀ (records : List Meta) (g : List String),
    g ∈ find_duplicates records →
    2 ≤ g.length ∧ ∃ h : String, h ≠ "" ∧ ∀ p ∈ g,
      p ≠ "" ∧ ∃ r ∈ records, r.hash = some h ∧ r.path = some p := by
  intro records g hg
  unfold find_duplicates at hg
  obtain ⟨e, he, hge⟩ := List.mem_map.1 hg
  have hmem := List.mem_filter.1 he
  have hlen : 1 < e.2.length := by simpa using hmem.2
  have hsound := hashGroupsAux_sound records records [] (fun _ hx => hx)
    (by intro g hg; simp at hg) e hmem.1
  subst hge
  exact ⟨hlen, e.1, hsound.1, hsound.2⟩

/-- Witness for claim C1 on the spec's three-record example and its unique
duplicate group. -/
theorem find_duplicates_groups_sound_witness :
    2 ≤ (["/a/1.txt", "/b/2.txt"] : List String).length ∧
      ∃ h : String, h ≠ "" ∧ ∀ p ∈ (["/a/1.txt", "/b/2.txt"] : List String),
        p ≠ "" ∧ ∃ r ∈ exRecords, r.hash = some h ∧ r.path = some p :=
  find_duplicates_groups_sound exRecords ["/a/1.txt", "/b/2.txt"] (by decide)

/-- Membership testing on keys only depends on the key column. -/
theorem any_keys_map {β : Type} (l : List (String × β)) (h : String) :
    l.any (fun g => g.1 == h) = (l.map (fun g => g.1)).any (fun x => x == h) := by
  induction l with
  | nil => rfl
  | cons a l ih => simp [ih]

/-- One update step of the wasted-space pass and one of the grouping pass
stay aligned: keys match and counts match member-list lengths. -/
theorem step_rel (acc1 : List (String × List String)) (acc2 : List (String × Nat × Nat))
    (h p : String) (sz : Nat)
    (hrel : acc2.map (fun g => (g.1, g.2.1)) = acc1.map (fun g => (g.1, g.2.length))) :
    (wsStep acc2 h sz).map (fun g => (g.1, g.2.1)) =
      (groupStep acc1 h p).map (fun g => (g.1, g.2.length)) := by
  have hk : acc2.map (fun g => g.1) = acc1.map (fun g => g.1) := by
    have h2 := congrArg (List.map Prod.fst) hrel
    simpa [List.map_map] using h2
  have hany : acc2.any (fun g => g.1 == h) = acc1.any (fun g => g.1 == h) := by
    rw [any_keys_map, any_keys_map, hk]
  unfold wsStep groupStep
  by_cases hc : acc1.any (fun g => g.1 == h) = true
  · rw [hany, if_pos hc, if_pos hc, List.map_map, List.map_map]
    have l2 : ∀ g : String × Nat × Nat,
        ((fun g : String × Nat × Nat => (g.1, g.2.1)) ∘
          (fun g : String × Nat × Nat => if g.1 == h then (g.1, g.2.1 + 1, g.2.2) else g)) g =
        bumpKey h ((fun g : String × Nat × Nat => (g.1, g.2.1)) g) := by
      intro g; by_cases hg : g.1 = h <;> simp [bumpKey, hg]
    have l1 : ∀ g : String × List String,
        ((fun g : String × List String => (g.1, g.2.length)) ∘
          (fun g : String × List String => if g.1 == h then (g.1, g.2 ++ [p]) else g)) g =
        bumpKey h ((fun g : String × List String => (g.1, g.2.length)) g) := by
      intro g; by_cases hg : g.1 = h <;> simp [bumpKey, hg]
    rw [List.map_congr_left (fun g _ => l2 g), List.map_congr_left (fun g _ => l1 g)]
    have hb := congrArg (List.map (bumpKey h)) hrel
    simpa [List.map_map, Function.comp] using hb
  · rw [hany, if_neg hc, if_neg hc, List.map_append, List.map_append, hrel]
    rfl

/-- The two passes of `calculate_wasted_space` and `find_duplicates` stay
aligned on keys and counts, provided every record with a non-empty hash
also has a non-empty path. -/
theorem aux_rel : ∀ (rs : List Meta) (acc1 : List (String × List String))
    (acc2 : List (String × Nat × Nat)),
    (∀ r ∈ rs, truthy r.hash = true → truthy r.path = true) →
    acc2.map (fun g => (g.1, g.2.1)) = acc1.map (fun g => (g.1, g.2.length)) →
    (wsGroupsAux acc2 rs).map (fun g => (g.1, g.2.1)) =
      (hashGroupsAux acc1 rs).map (fun g => (g.1, g.2.length)) := by
  intro rs
  induction rs with
  | nil => intro acc1 acc2 _ hrel; simpa [wsGroupsAux, hashGroupsAux] using hrel
  | cons r rest ih =>
    intro acc1 acc2 hyp hrel
    simp only [wsGroupsAux, hashGroupsAux]
    by_cases hh : truthy r.hash = true
    · have hp : truthy r.path = true := hyp r (List.mem_cons_self r rest) hh
      rw [if_pos hh, if_pos (by rw [hh, hp]; rfl)]
      exact ih _ _ (fun x hx => hyp x (List.mem_cons_of_mem r hx))
        (step_rel acc1 acc2 (oget r.hash) (oget r.path) (r.size.getD 0) hrel)
    · have hh' : truthy r.hash = false := by simpa using hh
      rw [if_neg (by rw [hh']; simp), if_neg (by rw [hh']; simp)]
      exact ih _ _ (fun x hx => hyp x (List.mem_cons_of_mem r hx)) hrel

/-- The updated digest's key is present after a `wsStep`. -/
theorem wsStep_key_mem (acc2 : List (String × Nat × Nat)) (h : String) (sz : Nat) :
    h ∈ (wsStep acc2 h sz).map (fun g => g.1) := by
  unfold wsStep
  by_cases hc : acc2.any (fun g => g.1 == h) = true
  · rw [if_pos hc]
    obtain ⟨g, hg, hgh⟩ := List.any_eq_true.1 hc
    have hgh' : g.1 = h := by simpa using hgh
    have hkeys : (acc2.map (fun g => if g.1 == h then (g.1, g.2.1 + 1, g.2.2) else g)).map
        (fun g => g.1) = acc2.map (fun g => g.1) := by
      rw [List.map_map]
      exact List.map_congr_left (fun x _ => by by_cases hx : x.1 = h <;> simp [hx])
    rw [hkeys]
    exact hgh' ▸ List.mem_map_of_mem (fun g => g.1) hg
  · rw [if_neg hc]; simp

/-- `wsStep` never removes a key. -/
theorem wsStep_keys_mono (acc2 : List (String × Nat × Nat)) (h : String) (sz : Nat)
    (x : String) (hx : x ∈ acc2.map (fun g => g.1)) :
    x ∈ (wsStep acc2 h sz).map (fun g => g.1) := by
  unfold wsStep
  by_cases hc : acc2.any (fun g => g.1 == h) = true
  · rw [if_pos hc]
    have hkeys : (acc2.map (fun g => if g.1 == h then (g.1, g.2.1 + 1, g.2.2) else g)).map
        (fun g => g.1) = acc2.map (fun g => g.1) := by
      rw [List.map_map]
      exact List.map_congr_left (fun y _ => by by_cases hy : y.1 = h <;> simp [hy])
    rw [hkeys]; exact hx
  · rw [if_neg hc]
    rw [List.map_append, List.mem_append]
    exact Or.inl hx

/-- Every entry after a `wsStep` either keeps the key and size of a prior
entry, or is the freshly inserted entry of a key that was absent. -/
theorem wsStep_entry_src (acc2 : List (String × Nat × Nat)) (h : String) (sz : Nat)
    (e : String × Nat × Nat) (he : e ∈ wsStep acc2 h sz) :
    (∃ c : Nat, (e.1, c, e.2.2) ∈ acc2) ∨
    (e = (h, 1, sz) ∧ acc2.any (fun g => g.1 == h) = false) := by
  unfold wsStep at he
  by_cases hc : acc2.any (fun g => g.1 == h) = true
  · rw [if_pos hc] at he
    obtain ⟨g0, hg0, hge⟩ := List.mem_map.1 he
    by_cases hk : g0.1 == h
    · rw [if_pos hk] at hge
      subst hge
      exact Or.inl ⟨g0.2.1, by simpa using hg0⟩
    · rw [if_neg hk] at hge
      subst hge
      exact Or.inl ⟨g0.2.1, by simpa using hg0⟩
  · rw [if_neg hc] at he
    rcases List.mem_append.1 he with he | he
    · exact Or.inl ⟨e.2.1, by simpa using he⟩
    · have : e = (h, 1, sz) := by simpa using he
      exact Or.inr ⟨this, Bool.eq_false_iff.2 hc⟩

/-- Unfolding of the representative size over a record cons. -/
theorem firstSize_cons (r : Meta) (rs : List Meta) (h : String) :
    firstSize (r :: rs) h =
      if (truthy r.hash && (oget r.hash == h)) = true then r.size.getD 0
      else firstSize rs h := by
  unfold firstSize
  by_cases hc : (truthy r.hash && (oget r.hash == h)) = true
  · rw [if_pos hc,
      List.find?_cons_of_pos (p := fun r => truthy r.hash && (oget r.hash == h)) rs hc]
  · rw [if_neg hc,
      List.find?_cons_of_neg (p := fun r => truthy r.hash && (oget r.hash == h)) rs hc]

/-- Every entry of the wasted-space pass either keeps the key and size of
an entry of the starting accumulator, or carries a key absent from it and
the size of the first record with that digest. -/
theorem wsGroupsAux_sizes : ∀ (rs : List Meta) (acc2 : List (String × Nat × Nat))
    (e : String × Nat × Nat), e ∈ wsGroupsAux acc2 rs →
    (∃ c : Nat, (e.1, c, e.2.2) ∈ acc2) ∨
    (e.1 ∉ acc2.map (fun g => g.1) ∧ e.2.2 = firstSize rs e.1) := by
  intro rs
  induction rs with
  | nil =>
    intro acc2 e he
    exact Or.inl ⟨e.2.1, by simpa [wsGroupsAux] using he⟩
  | cons r rest ih =>
    intro acc2 e he
    simp only [wsGroupsAux] at he
    by_cases hh : truthy r.hash = true
    · rw [if_pos hh] at he
      rcases ih _ e he with ⟨c, hc⟩ | ⟨hnk, hsz⟩
      · rcases wsStep_entry_src acc2 (oget r.hash) (r.size.getD 0) (e.1, c, e.2.2) hc with
          ⟨c2, hc2⟩ | ⟨heq, hfresh⟩
        · exact Or.inl ⟨c2, hc2⟩
        · right
          have h1 : e.1 = oget r.hash := congrArg Prod.fst heq
          have h3 : e.2.2 = r.size.getD 0 := congrArg (fun x => x.2.2) heq
          constructor
          · intro hk
            obtain ⟨g, hg, hgk⟩ := List.mem_map.1 hk
            have : acc2.any (fun g => g.1 == oget r.hash) = true :=
              List.any_eq_true.2 ⟨g, hg, by simp [hgk, h1.symm]⟩
            rw [this] at hfresh
            cases hfresh
          · rw [firstSize_cons, if_pos (by simp [hh, h1])]
            exact h3
      · right
        have hk2 : e.1 ∉ acc2.map (fun g => g.1) :=
          fun hk => hnk (wsStep_keys_mono acc2 (oget r.hash) (r.size.getD 0) e.1 hk)
        have hne : e.1 ≠ oget r.hash := by
          intro heq
          exact hnk (heq ▸ wsStep_key_mem acc2 (oget r.hash) (r.size.getD 0))
        refine ⟨hk2, ?_⟩
        have hcond : ¬ (truthy r.hash && (oget r.hash == e.1)) = true := by
          intro hcond
          have h4 : oget r.hash = e.1 := by
            simpa using (Bool.and_eq_true_iff.1 hcond).2
          exact hne h4.symm
        rw [hsz, firstSize_cons, if_neg hcond]
    · rw [if_neg hh] at he
      rcases ih _ e he with ⟨c, hc⟩ | ⟨hnk, hsz⟩
      · exact Or.inl ⟨c, hc⟩
      · right
        refine ⟨hnk, ?_⟩
        have hcond : ¬ (truthy r.hash && (oget r.hash == e.1)) = true := by
          intro hcond
          exact hh (Bool.and_eq_true_iff.1 hcond).1
        rw [hsz, firstSize_cons, if_neg hcond]

/-- Aligned group lists (same keys and counts, sizes determined by the
key) produce the same wasted-space sum. -/
theorem sum_align : ∀ (ws : List (String × Nat × Nat)) (hg : List (String × List String))
    (F : String → Nat),
    ws.map (fun g => (g.1, g.2.1)) = hg.map (fun g => (g.1, g.2.length)) →
    (∀ e ∈ ws, e.2.2 = F e.1) →
    ((ws.filter (fun g => 1 < g.2.1)).map (fun g => (g.2.1 - 1) * g.2.2)).sum =
      ((hg.filter (fun g => 1 < g.2.length)).map (fun g => (g.2.length - 1) * F g.1)).sum := by
  intro ws
  induction ws with
  | nil =>
    intro hg F hrel _
    cases hg with
    | nil => rfl
    | cons g hg2 => simp at hrel
  | cons e ws2 ih =>
    intro hg F hrel hsz
    cases hg with
    | nil => simp at hrel
    | cons g hg2 =>
      simp only [List.map_cons, List.cons.injEq] at hrel
      obtain ⟨hpair, htail⟩ := hrel
      have h1 : e.1 = g.1 := congrArg Prod.fst hpair
      have h2 : e.2.1 = g.2.length := congrArg Prod.snd hpair
      have hF : e.2.2 = F e.1 := hsz e (List.mem_cons_self e ws2)
      have htl := ih hg2 F htail (fun x hx => hsz x (List.mem_cons_of_mem e hx))
      by_cases hgt : 1 < g.2.length
      · rw [List.filter_cons_of_pos (by simp [h2, hgt]),
          List.filter_cons_of_pos (by simpa using hgt)]
        simp only [List.map_cons, List.sum_cons]
        rw [htl, h2, hF, h1]
      · rw [List.filter_cons_of_neg (by simp [h2, hgt]),
          List.filter_cons_of_neg (by simpa using hgt)]
        exact htl

/-- When the digests of the remaining records are pairwise distinct and
none of them already has an entry, every final entry either comes from the
accumulator or has count exactly 1. -/
theorem wsGroupsAux_fresh : ∀ (rs : List Meta) (acc2 : List (String × Nat × Nat)),
    (validHashes rs).Nodup →
    (∀ r ∈ rs, truthy r.hash = true → (oget r.hash) ∉ acc2.map (fun g => g.1)) →
    ∀ e ∈ wsGroupsAux acc2 rs, e ∈ acc2 ∨ e.2.1 = 1 := by
  intro rs
  induction rs with
  | nil =>
    intro acc2 _ _ e he
    exact Or.inl (by simpa [wsGroupsAux] using he)
  | cons r rest ih =>
    intro acc2 hnd hfr e he
    simp only [wsGroupsAux] at he
    by_cases hh : truthy r.hash = true
    · rw [if_pos hh] at he
      have hnotin : oget r.hash ∉ acc2.map (fun g => g.1) :=
        hfr r (List.mem_cons_self r rest) hh
      have hany : ¬ acc2.any (fun g => g.1 == oget r.hash) = true := by
        intro hany
        obtain ⟨g, hg, hgk⟩ := List.any_eq_true.1 hany
        exact hnotin (by
          have : g.1 = oget r.hash := by simpa using hgk
          exact this ▸ List.mem_map_of_mem (fun g => g.1) hg)
      have hstep : wsStep acc2 (oget r.hash) (r.size.getD 0) =
          acc2 ++ [(oget r.hash, 1, r.size.getD 0)] := by
        unfold wsStep
        rw [if_neg hany]
      rw [hstep] at he
      have hvh : validHashes (r :: rest) = oget r.hash :: validHashes rest := by
        unfold validHashes
        rw [List.filter_cons_of_pos (by simpa using hh)]
        simp
      rw [hvh] at hnd
      obtain ⟨hhead, htail⟩ := List.nodup_cons.1 hnd
      have hfr2 : ∀ x ∈ rest, truthy x.hash = true →
          (oget x.hash) ∉ (acc2 ++ [(oget r.hash, 1, r.size.getD 0)]).map
            (fun g : String × Nat × Nat => g.1) := by
        intro x hx ht hmem
        rw [List.map_append, List.mem_append] at hmem
        rcases hmem with hmem | hmem
        · exact hfr x (List.mem_cons_of_mem r hx) ht hmem
        · have hx2 : oget x.hash = oget r.hash := by simpa using hmem
          have hxf : x ∈ rest.filter (fun r => truthy r.hash) := List.mem_filter.2 ⟨hx, ht⟩
          have hmem2 : oget x.hash ∈ validHashes rest :=
            List.mem_map_of_mem (fun r => oget r.hash) hxf
          exact hhead (hx2 ▸ hmem2)
      rcases ih _ htail hfr2 e he with hin | h1
      · rcases List.mem_append.1 hin with hin | hin
        · exact Or.inl hin
        · right
          have : e = (oget r.hash, 1, r.size.getD 0) := by simpa using hin
          rw [this]
      · exact Or.inr h1
    · rw [if_neg hh] at he
      have hvh : validHashes (r :: rest) = validHashes rest := by
        unfold validHashes
        rw [List.filter_cons_of_neg (by simpa using hh)]
      rw [hvh] at hnd
      exact ih acc2 hnd (fun x hx ht => hfr x (List.mem_cons_of_mem r hx) ht) e he

/-- Claim C2 (counterexample): on `cexRecords` the first record has a
non-empty hash but an empty path, so `find_duplicates` returns no group —
making the claimed sum 0 — while `calculate_wasted_space` still counts
that record and returns 100. -/
theorem calculate_wasted_space_claim_cex :
    find_duplicates cexRecords = [] ∧ calculate_wasted_space cexRecords = 100 := by
  constructor
  · decide
  · decide

/-- Claim C2 (amended): provided every record with a non-empty hash also
has a non-empty path, `calculate_wasted_space` equals the sum over the
duplicate groups of `find_duplicates` of (memberCount - 1) times the
representative size — the size of the first record with that digest — and
it equals 0 when no digest repeats. -/
theorem calculate_wasted_space_amended : ∀ records : List Meta,
    (∀ r ∈ records, truthy r.hash = true → truthy r.path = true) →
    find_duplicates records =
      ((hashGroups records).filter (fun g => 1 < g.2.length)).map (fun g => g.2) ∧
    calculate_wasted_space records =
      (((hashGroups records).filter (fun g => 1 < g.2.length)).map
        (fun g => (g.2.length - 1) * firstSize records g.1)).sum ∧
    ((validHashes records).Nodup → calculate_wasted_space records = 0) := by
  intro records hyp
  refine ⟨rfl, ?_, ?_⟩
  · have hrel := aux_rel records [] [] hyp rfl
    have hszs : ∀ e ∈ wsGroups records, e.2.2 = firstSize records e.1 := by
      intro e he
      unfold wsGroups at he
      rcases wsGroupsAux_sizes records [] e he with ⟨c, hc⟩ | ⟨_, hsz⟩
      · simp at hc
      · exact hsz
    unfold calculate_wasted_space
    exact sum_align (wsGroups records) (hashGroups records) (firstSize records) hrel hszs
  · intro hnd
    have h1 : ∀ e ∈ wsGroups records, e.2.1 = 1 := by
      intro e he
      unfold wsGroups at he
      rcases wsGroupsAux_fresh records [] hnd (fun r hr ht => by simp) e he with hin | hone
      · simp at hin
      · exact hone
    unfold calculate_wasted_space
    have hnil : (wsGroups records).filter (fun g => 1 < g.2.1) = [] := by
      apply List.filter_eq_nil_iff.2
      intro a ha
      simp [h1 a ha]
    rw [hnil]
    rfl

/-- Witness for claim C2 on the spec's three-record example, where every
hashed record has a path. -/
theorem calculate_wasted_space_amended_witness :
    find_duplicates exRecords =
      ((hashGroups exRecords).filter (fun g => 1 < g.2.length)).map (fun g => g.2) ∧
    calculate_wasted_space exRecords =
      (((hashGroups exRecords).filter (fun g => 1 < g.2.length)).map
        (fun g => (g.2.length - 1) * firstSize exRecords g.1)).sum ∧
    ((validHashes exRecords).Nodup → calculate_wasted_space exRecords = 0) :=
  calculate_wasted_space_amended exRecords (by decide)

/-- Claim C10: two records with the same non-empty path and the same
non-empty hash produce a group listing that path twice — groups carry one
entry per matching record, with multiplicity, not one per distinct path. -/
theorem find_duplicates_multiplicity : ∀ (p h : String) (s1 s2 : Option Nat),
    p ≠ "" → h ≠ "" →
    find_duplicates [⟨some p, s1, some h⟩, ⟨some p, s2, some h⟩] = [[p, p]] := by
  intro p h s1 s2 hp hh
  have th : truthy (some h) = true := by simp [truthy, oget, hh]
  have tp : truthy (some p) = true := by simp [truthy, oget, hp]
  simp [find_duplicates, hashGroups, hashGroupsAux, groupStep, th, tp, oget]

/-- Witness for claim C10 at a concrete duplicated record. -/
theorem find_duplicates_multiplicity_witness :
    find_duplicates [⟨some "/a/x", some 1, some "H"⟩, ⟨some "/a/x", some 2, some "H"⟩] =
      [["/a/x", "/a/x"]] :=
  find_duplicates_multiplicity "/a/x" "H" (some 1) (some 2) (by decide) (by decide)

/-- Big-endian expansion always yields exactly `n` bytes. -/
theorem bytesBE_length (n : Nat) : ∀ v : Nat, (bytesBE n v).length = n := by
  induction n with
  | zero => exact fun _ => rfl
  | succ m ih => exact fun v => by simp [bytesBE, ih]

/-- Block compression always yields an 8-word state. -/
theorem processBlock_length (H block : List Nat) : (processBlock H block).length = 8 := by
  simp [processBlock]

/-- Folding block compression over any block list keeps 8 words. -/
theorem foldl_processBlock_length : ∀ (blocks : List (List Nat)) (H : List Nat),
    H.length = 8 → (blocks.foldl processBlock H).length = 8 := by
  intro blocks
  induction blocks with
  | nil => intro H h; simpa using h
  | cons b bs ih => intro H _; exact ih (processBlock H b) (processBlock_length H b)

/-- The raw SHA-256 digest is always 32 bytes. -/
theorem sha256Bytes_length (msg : List Nat) : (sha256Bytes msg).length = 32 := by
  unfold sha256Bytes
  rw [List.length_flatMap]
  have h8 := foldl_processBlock_length (chunksOf 64 (padMessage msg)) H256init rfl
  generalize (chunksOf 64 (padMessage msg)).foldl processBlock H256init = ws at h8 ⊢
  have hsum : ∀ l : List Nat, (l.map (List.length ∘ bytesBE 4)).sum = 4 * l.length := by
    intro l
    induction l with
    | nil => rfl
    | cons a l2 ih =>
      simp only [List.map_cons, List.sum_cons, Function.comp, bytesBE_length,
        List.length_cons, ih]
      omega
  rw [hsum ws, h8]

/-- The hexadecimal digit character is always one of the sixteen lowercase
digits. -/
theorem hexChar_mem (n : Nat) : hexChar n ∈ hexDigits := by
  unfold hexChar
  rcases Nat.lt_or_ge n hexDigits.length with h | h
  · exact List.getD_eq_getElem hexDigits '0' h ▸ hexDigits.getElem_mem h
  · rw [List.getD_eq_default hexDigits '0' h]
    decide

/-- Every character of a hexadecimal byte rendering is a lowercase hex
digit. -/
theorem bytesToHex_chars (bs : List Nat) :
    ∀ c ∈ (bytesToHex bs).data, c ∈ hexDigits := by
  intro c hc
  simp only [bytesToHex] at hc
  obtain ⟨b, _, hcb⟩ := List.mem_flatMap.1 hc
  simp only [byteHex, List.mem_cons] at hcb
  rcases hcb with h | h | h
  · exact h ▸ hexChar_mem (b / 16 % 16)
  · exact h ▸ hexChar_mem (b % 16)
  · simp at h

/-- A hexadecimal byte rendering has two characters per byte. -/
theorem bytesToHex_length : ∀ bs : List Nat, (bytesToHex bs).length = 2 * bs.length := by
  intro bs
  induction bs with
  | nil => rfl
  | cons b bs2 ih =>
    simp only [bytesToHex, String.length, List.flatMap_cons] at ih ⊢
    simp [byteHex] at ih ⊢
    omega

/-- Claim C4: `generate_file_hash` returns the empty string when the path
does not resolve to an existing regular file or the read fails; otherwise
it returns the SHA-256 digest of the file's full content — so identical
bytes give identical digests — and every non-empty result is a 64-character
string of lowercase hexadecimal digits. -/
theorem generate_file_hash_correct : ∀ (fs : String → Option FileEnt) (p : String),
    (fs p = none → generate_file_hash fs p = "") ∧
    (∀ e : FileEnt, fs p = some e → e.readable = false →
      generate_file_hash fs p = "") ∧
    (∀ e : FileEnt, fs p = some e → e.readable = true →
      generate_file_hash fs p = sha256hex e.content) ∧
    (∀ (q : String) (e e2 : FileEnt), fs p = some e → fs q = some e2 →
      e.readable = true → e2.readable = true → e.content = e2.content →
      generate_file_hash fs p = generate_file_hash fs q) ∧
    (generate_file_hash fs p = "" ∨
      ((generate_file_hash fs p).length = 64 ∧
        ∀ c ∈ (generate_file_hash fs p).data, c ∈ hexDigits)) := by
  intro fs p
  have hreadable : ∀ e : FileEnt, fs p = some e → e.readable = true →
      generate_file_hash fs p = sha256hex e.content := by
    intro e he hr
    obtain ⟨c, rb⟩ := e
    simp only at hr
    subst hr
    unfold generate_file_hash
    rw [he]
    exact hashFileEnt_eq.1 c
  refine ⟨?_, ?_, hreadable, ?_, ?_⟩
  · intro h
    unfold generate_file_hash
    rw [h]
    rfl
  · intro e he hr
    obtain ⟨c, rb⟩ := e
    simp only at hr
    subst hr
    unfold generate_file_hash
    rw [he]
    exact hashFileEnt_eq.2.1 c
  · intro q e e2 he he2 hr hr2 hc
    rw [hreadable e he hr]
    have h2 : generate_file_hash fs q = sha256hex e2.content := by
      obtain ⟨c, rb⟩ := e2
      simp only at hr2 hc ⊢
      subst hr2
      unfold generate_file_hash
      rw [he2]
      exact hashFileEnt_eq.1 c
    rw [h2, hc]
  · cases hfs : fs p with
    | none =>
      left
      unfold generate_file_hash
      rw [hfs]
      rfl
    | some e =>
      cases hr : e.readable with
      | false =>
        left
        obtain ⟨c, rb⟩ := e
        simp only at hr
        subst hr
        unfold generate_file_hash
        rw [hfs]
        exact hashFileEnt_eq.2.1 c
      | true =>
        right
        rw [hreadable e hfs hr]
        constructor
        · unfold sha256hex
          rw [bytesToHex_length, sha256Bytes_length]
        · intro c hc
          exact bytesToHex_chars (sha256Bytes e.content) c hc

/-- Witness for claim C4 on a concrete filesystem: two identical files
hash identically, the unreadable file and the missing path hash to the
empty string, and the readable file's digest is the content digest. -/
theorem generate_file_hash_correct_witness :
    generate_file_hash exFS "/f1" = generate_file_hash exFS "/f2" ∧
    generate_file_hash exFS "/f3" = "" ∧
    generate_file_hash exFS "/missing" = "" ∧
    generate_file_hash exFS "/f1" = sha256hex [1, 2, 3] :=
  ⟨(generate_file_hash_correct exFS "/f1").2.2.2.1 "/f2" ⟨[1, 2, 3], true⟩
      ⟨[1, 2, 3], true⟩ rfl rfl rfl rfl rfl,
   (generate_file_hash_correct exFS "/f3").2.1 ⟨[9], false⟩ rfl rfl,
   (generate_file_hash_correct exFS "/missing").1 rfl,
   (generate_file_hash_correct exFS "/f1").2.2.1 ⟨[1, 2, 3], true⟩ rfl rfl⟩
